import Mathlib

/-!
Shallow embedding of `src/sentencepiece_processor.cc` (the SentencePiece
processor facade) and proofs about its run-length-encoding (RLE) layer, the
encode walk `PopulateSentencePieceText`, the decode surface derivation, the
`SampleEncode` dispatch and the special-id accessors.

Conventions used throughout:
* C++ `std::string` pieces handled only by whole-string comparison (the RLE
  layer) are Lean `String`s; text that the code indexes byte-by-byte (the
  encode/decode pipelines) is a `List Nat` of byte values.
* Out-of-bounds vector reads, `std::stoi` throws and negative-count
  `vector::insert` calls - all of which abort or are undefined behaviour in
  the C++ - are modelled as `none` of an `Option` result.
* The C++ `while` loops of `expand_from_pieces` / `expand_from_ids` are
  modelled with an explicit fuel parameter; `none` on fuel exhaustion.
-/

/-- The start-of-repeat marker literal `"(#startrepeat)"` of the RLE layer. -/
def startRepeat : String := "(#startrepeat)"

/-- The end-of-repeat marker literal `"(#endrepeat)"` of the RLE layer. -/
def endRepeat : String := "(#endrepeat)"

/-- Structural helper for `extract_each_digit`: the fuel only bounds the
recursion depth and never runs out when it starts at least as large as `x`. -/
def extractAux : Nat → Nat → List Nat
  | _, 0 => []
  | 0, _ + 1 => []
  | fuel + 1, x + 1 => extractAux fuel ((x + 1) / 10) ++ [(x + 1) % 10]

/-- `extract_each_digit` from the source: decimal digits of `x`, most
significant first; empty for `x = 0` (the C++ loop `while (x > 0)`). -/
def extract_each_digit (x : Nat) : List Nat := extractAux x x

/-- The character `std::to_string(d)` produces for a single digit `d ≤ 9`. -/
def digitChar (d : Nat) : Char := Char.ofNat (48 + d)

/-- The one-character string `std::to_string(d)` produces for `d ≤ 9`. -/
def digitStr (d : Nat) : String := String.mk [digitChar d]

/-- The digit pieces the fold emits for a run count `k`. -/
def digitsToStrs (k : Nat) : List String := (extract_each_digit k).map digitStr

/-- Emission of one maximal run of `cnt` copies of `cur` by `rle`:
the piece alone for `cnt = 1`, the marker-delimited digit form otherwise. -/
def rleEmit (cur : String) (cnt : Nat) : List String :=
  if cnt > 1 then cur :: startRepeat :: (digitsToStrs cnt ++ [endRepeat])
  else [cur]

/-- The scanning loop of `rle`: `cur` is the piece of the current run and
`cnt` the number of copies seen so far (the C++ `count` accumulator). -/
def rleAux (cur : String) (cnt : Nat) : List String → List String
  | [] => rleEmit cur cnt
  | y :: ys =>
    if y = cur then rleAux cur (cnt + 1) ys
    else rleEmit cur cnt ++ rleAux y 1 ys

/-- `rle` from the source: folds maximal runs of identical consecutive pieces
into `piece (#startrepeat) digits (#endrepeat)` blocks. -/
def rle : List String → List String
  | [] => []
  | x :: xs => rleAux x 1 xs

/-- Decimal value of one character, `none` if it is not `'0'`..`'9'`. -/
def digitVal (c : Char) : Option Nat :=
  if 48 ≤ c.toNat ∧ c.toNat ≤ 57 then some (c.toNat - 48) else none

/-- Longest digit span at the head of a character list. -/
def spanDigits : List Char → List Nat
  | [] => []
  | c :: cs =>
    match digitVal c with
    | some d => d :: spanDigits cs
    | none => []

/-- Whitespace predicate of `std::isspace` in the C locale. -/
def isSpaceChar (c : Char) : Bool :=
  c = ' ' ∨ c = '\t' ∨ c = '\n' ∨ c = '\x0b' ∨ c = '\x0c' ∨ c = '\r'

/-- Drop the leading whitespace `std::stoi` skips. -/
def dropSpacesL : List Char → List Char
  | [] => []
  | c :: cs => if isSpaceChar c then dropSpacesL cs else c :: cs

/-- Value of a most-significant-first digit list. -/
def digitsVal (ds : List Nat) : Nat := ds.foldl (fun a d => a * 10 + d) 0

/-- `std::stoi` on a piece: leading whitespace, optional sign, then at least
one digit; `none` models the `std::invalid_argument` throw. -/
def cppStoi (s : String) : Option Int :=
  match dropSpacesL s.data with
  | [] => none
  | c :: rest =>
    if c = '-' then
      match spanDigits rest with
      | [] => none
      | ds => some (-(digitsVal ds : Int))
    else if c = '+' then
      match spanDigits rest with
      | [] => none
      | ds => some (digitsVal ds)
    else
      match spanDigits (c :: rest) with
      | [] => none
      | ds => some (digitsVal ds)

/-- The accumulator loop of `VectorToInt` after the reverse: `dec` is the
current power of ten, `total` the running sum. -/
def vecToIntAux : List Int → Int → Int → Int
  | [], _, total => total
  | it :: rest, dec, total => vecToIntAux rest (dec * 10) (total + it * dec)

/-- `VectorToInt` from the source: reverses the digit list and sums
`digit * 10^position`. -/
def VectorToInt (v : List Int) : Int := vecToIntAux v.reverse 1 0

/-- Index of the first occurrence of `s` (the C++ `std::find` iterator offset);
equals the length when `s` is absent. -/
def firstIdx {α : Type} [DecidableEq α] (s : α) : List α → Nat
  | [] => 0
  | x :: xs => if x = s then 0 else firstIdx s xs + 1

/-- Replace the last element of a list by `f` of it (the mutation of
`spt->mutable_pieces(pieces_size - 1)`); identity on the empty list, which the
walk never reaches in the merge branch. -/
def modifyLast {α : Type} (f : α → α) : List α → List α
  | [] => []
  | [x] => [f x]
  | x :: y :: ys => x :: modifyLast f (y :: ys)

/-- `_expand_from_pieces` from the source. `none` models the crashes and
undefined behaviour of the C++: the `pieces[start_position - 1]` read when the
start marker is first (or the list empty), the digit-collecting loop running
past the end when the first `(#endrepeat)` precedes the first
`(#startrepeat)`, a `std::stoi` throw on a non-numeric piece between the
markers, and `vector::insert` called with a negative count. -/
def _expand_from_pieces (pieces : List String) : Option (List String) :=
  let sp := firstIdx startRepeat pieces
  let ep := firstIdx endRepeat pieces
  if sp = 0 then none
  else if sp < pieces.length ∧ ep < pieces.length then
    if sp + 1 ≤ ep then
      (((pieces.drop (sp + 1)).take (ep - sp - 1)).mapM cppStoi).bind fun num =>
        if VectorToInt num - 1 < 0 then none
        else
          some (pieces.take sp ++
            List.replicate (VectorToInt num - 1).toNat (pieces.getD (sp - 1) "") ++
            pieces.drop (ep + 1))
    else none
  else some pieces

/-- The `while` loop of `expand_from_pieces`, with explicit fuel; `none` on
fuel exhaustion or on a crashing `_expand_from_pieces` step. -/
def expandLoop : Nat → List String → Option (List String)
  | 0, _ => none
  | fuel + 1, pieces =>
    if startRepeat ∈ pieces then
      match _expand_from_pieces pieces with
      | none => none
      | some p2 => expandLoop fuel p2
    else some pieces

/-- The unfold loop, run on `l`, reaches `out` with some amount of fuel. -/
def ExpandsTo (l out : List String) : Prop :=
  ∃ fuel, expandLoop fuel l = some out

/-- The unfold loop terminates on `l`: some fuel makes it return a result
(which is then necessarily free of `(#startrepeat)`). -/
def ExpandTerminates (l : List String) : Prop :=
  ∃ fuel out, expandLoop fuel l = some out

/-- The read `pieces[start_position - 1]` performed by `_expand_from_pieces`
(and the `*(it1 - 1)` of `_expand_from_ids`) is within bounds: the first
occurrence of `(#startrepeat)` is at a positive index, and the index one
before it is a valid position. -/
def precedingReadInBounds (pieces : List String) : Prop :=
  1 ≤ firstIdx startRepeat pieces ∧
    firstIdx startRepeat pieces - 1 < pieces.length

/-- `_expand_from_ids` from the source, parameterised by the model's
`PieceToId` / `IdToPiece` (`p2i` / `i2p`). `none` models the C++ crashes:
the `*(it1 - 1)` read when the start-marker id is first (or absent, or the
list empty), the digit loop `while (it1 != it2)` running past the end when
the first end-marker id precedes the first start-marker id, a `std::stoi`
throw, and the suffix loop `while (s != ids.size())` running past the end
when the end-marker id is absent. Unlike `_expand_from_pieces`, the count
inserted is `VectorToInt(num)` with NO subtraction of one, and a negative
count simply yields zero pushes (`while (i < count)`). -/
def _expand_from_ids (p2i : String → Int) (i2p : Int → String)
    (ids : List Int) : Option (List Int) :=
  let sp := firstIdx (p2i startRepeat) ids
  let ep := firstIdx (p2i endRepeat) ids
  if sp = 0 then none
  else if ids.length ≤ sp then none
  else if ep < sp + 1 then none
  else if ids.length ≤ ep then none
  else
    (((ids.drop (sp + 1)).take (ep - sp - 1)).mapM
        (fun v => cppStoi (i2p v))).bind fun num =>
      some (ids.take sp ++
        List.replicate (VectorToInt num).toNat (ids.getD (sp - 1) 0) ++
        ids.drop (ep + 1))

/-- The `while` loop of `expand_from_ids`, with explicit fuel. -/
def expandIdsLoop (p2i : String → Int) (i2p : Int → String) :
    Nat → List Int → Option (List Int)
  | 0, _ => none
  | fuel + 1, ids =>
    if p2i startRepeat ∈ ids then
      match _expand_from_ids p2i i2p ids with
      | none => none
      | some ids2 => expandIdsLoop p2i i2p fuel ids2
    else some ids

/-! ### Encode walk (`PopulateSentencePieceText`) -/

/-- Byte strings of the encode/decode pipelines. -/
abbrev Bytes := List Nat

/-- One `SentencePieceText::SentencePiece` record: piece spelling, id,
surface and the half-open span `[begin_, end_)` into the original input. -/
structure SPiece where
  piece : Bytes
  id : Int
  surface : Bytes
  begin_ : Nat
  end_ : Nat
  deriving Repr, DecidableEq, Inhabited

/-- The model capabilities `PopulateSentencePieceText`, `SampleEncode` and
`ApplyExtraOptions` consult, as a record of abstract functions. `encode`,
`sampleEncode` and `nbestEncode` stand for the model kernel's calls on the
normalized text (the sampling temperature `alpha` and the random draw are
abstracted: `sampleEncode` already incorporates `alpha`, and the discrete
draw of the `nbest_size > 1` branch is an explicit `choice` index). -/
structure PModel where
  isControl : Int → Bool
  isUnknown : Int → Bool
  byteFallback : Bool
  pieceToId : Bytes → Int
  byteToPiece : Nat → Bytes
  bos_piece : Bytes
  eos_piece : Bytes
  encode : Bytes → List (Bytes × Int)
  sampleEncode : Bytes → List (Bytes × Int)
  nbestEncode : Bytes → Int → List (List (Bytes × Int))
  isNBestAvailable : Bool
  isSampleAvailable : Bool

/-- State of the walk over the model's `EncodeResult`: the `consumed` byte
cursor into the normalized text, the `is_prev_unk` flag, and the records
emitted so far. -/
structure PState where
  consumed : Nat
  is_prev_unk : Bool
  recs : List SPiece
  deriving Repr, DecidableEq

/-- `absl::ClippedSubstr(input, pos, len)`. -/
def clippedSubstr (input : Bytes) (pos len : Nat) : Bytes :=
  (input.drop pos).take len

/-- The byte-fallback emission for an unknown piece `w`: one record per byte
of `w`, the byte piece spelling and its id looked up through the model; the
last record carries the surface and the whole original span, the others an
empty surface and `begin_ = end_ = ob`. -/
def byteFallbackRecs (m : PModel) (w : Bytes) (surface : Bytes)
    (ob oe : Nat) : List SPiece :=
  (List.range w.length).map fun i =>
    let piece := m.byteToPiece (w.getD i 0)
    let sp_id := m.pieceToId piece
    if i = w.length - 1 then ⟨piece, sp_id, surface, ob, oe⟩
    else ⟨piece, sp_id, [], ob, ob⟩

/-- One iteration of the walk of `PopulateSentencePieceText` over a
model-emitted `(w, id)`. `none` models a failing `CHECK_*_OR_RETURN`. -/
def populateStep (input : Bytes) (n2o : List Nat) (m : PModel)
    (st : PState) (w : Bytes) (id : Int) : Option PState :=
  if w = [] then none
  else
    let is_unk := m.isUnknown id
    if m.isControl id then
      some ⟨st.consumed, is_unk,
        st.recs ++ [⟨w, id, [], n2o.getD st.consumed 0, n2o.getD st.consumed 0⟩]⟩
    else
      let b := st.consumed
      let e := st.consumed + w.length
      if b < n2o.length then
        if e < n2o.length then
          let ob := n2o.getD b 0
          let oe := n2o.getD e 0
          if ob ≤ input.length then
            if oe ≤ input.length then
              if ob ≤ oe then
                let surface := clippedSubstr input ob (oe - ob)
                let newrecs :=
                  if is_unk && m.byteFallback then
                    st.recs ++ byteFallbackRecs m w surface ob oe
                  else if st.is_prev_unk && is_unk then
                    modifyLast
                      (fun sp =>
                        ⟨sp.piece ++ w, sp.id, sp.surface ++ surface,
                          sp.begin_, oe⟩)
                      st.recs
                  else
                    st.recs ++ [⟨w, id, surface, ob, oe⟩]
                some ⟨e, is_unk, newrecs⟩
              else none
            else none
          else none
        else none
      else none

/-- The whole walk over the model's `EncodeResult`. -/
def popLoop (input : Bytes) (n2o : List Nat) (m : PModel) :
    PState → List (Bytes × Int) → Option PState
  | st, [] => some st
  | st, (w, id) :: rest =>
    match populateStep input n2o m st w id with
    | none => none
    | some st2 => popLoop input n2o m st2 rest

/-- The `ExtraOption` enum of the processor. -/
inductive ExtraOption where
  | REVERSE
  | EOS
  | BOS
  deriving Repr, DecidableEq

/-- `ApplyExtraOptions`: REVERSE reverses the records, EOS appends a record
with the eos piece/id, BOS prepends one with the bos piece/id (surface and
offsets keep their proto defaults). -/
def applyExtraOptions (m : PModel) (opts : List ExtraOption)
    (recs : List SPiece) : List SPiece :=
  opts.foldl
    (fun rs opt =>
      match opt with
      | ExtraOption.REVERSE => rs.reverse
      | ExtraOption.EOS => rs ++ [⟨m.eos_piece, m.pieceToId m.eos_piece, [], 0, 0⟩]
      | ExtraOption.BOS => ⟨m.bos_piece, m.pieceToId m.bos_piece, [], 0, 0⟩ :: rs)
    recs

/-- A `SentencePieceText`: the attached text and the piece records. -/
structure Spt where
  text : Bytes
  pieces : List SPiece
  deriving Repr, DecidableEq

/-- `PopulateSentencePieceText`: walk the result, check all normalized bytes
were consumed, apply the encode extra options and attach the input text. -/
def populate (input normalized : Bytes) (n2o : List Nat) (m : PModel)
    (opts : List ExtraOption) (result : List (Bytes × Int)) : Option Spt :=
  (popLoop input n2o m ⟨0, false, []⟩ result).bind fun st =>
    if st.consumed = normalized.length then
      some ⟨input, applyExtraOptions m opts st.recs⟩
    else none

/-- Sum of the piece byte lengths over the non-control pieces of an
`EncodeResult`: exactly the amount the walk's `consumed` cursor advances. -/
def sumNC (m : PModel) : List (Bytes × Int) → Nat
  | [] => 0
  | (w, id) :: rest => (if m.isControl id then 0 else w.length) + sumNC m rest

/-- `Encode(input, spt)`: normalize (the normalizer is the abstract
collaborator `nrm`, returning the normalized bytes and `norm_to_orig`),
run the model's greedy `Encode`, and populate. -/
def encodeSpt (m : PModel) (nrm : Bytes → Bytes × List Nat)
    (opts : List ExtraOption) (input : Bytes) : Option Spt :=
  populate input (nrm input).1 (nrm input).2 m opts (m.encode (nrm input).1)

/-- `SampleEncode(input, nbest_size, alpha, spt)`: the dispatch of the
source, with the random draw of the `nbest_size > 1` branch abstracted as
the oracle index `choice`. `none` models a failing check. -/
def sampleEncodeSpt (m : PModel) (nrm : Bytes → Bytes × List Nat)
    (opts : List ExtraOption) (input : Bytes) (nbest_size : Int)
    (choice : Nat) : Option Spt :=
  if 512 < nbest_size then none
  else
    let normalized := (nrm input).1
    let n2o := (nrm input).2
    if ¬m.isNBestAvailable ∨ nbest_size < 0 then
      if m.isSampleAvailable then
        populate input normalized n2o m opts (m.sampleEncode normalized)
      else none
    else if nbest_size = 1 ∨ nbest_size = 0 then
      populate input normalized n2o m opts (m.encode normalized)
    else
      let nbests := m.nbestEncode normalized nbest_size
      if nbests = [] then none
      else populate input normalized n2o m opts (nbests.getD choice [])

/-! ### Decode surface derivation (`DecodeSentencePiece`) -/

/-- The meta-space marker `U+2581`, as its three UTF-8 bytes
(`kSpaceSymbol = "\xe2\x96\x81"`). -/
def kSpaceSymbolB : Bytes := [0xE2, 0x96, 0x81]

/-- Does `l` start with `pat`? (`absl::StartsWith`). -/
def hasPref : Bytes → Bytes → Bool
  | [], _ => true
  | _ :: _, [] => false
  | p :: ps, b :: bs => p == b && hasPref ps bs

/-- `absl::ConsumePrefix`: strip `pat` from the head of `l` when present. -/
def consumePref (pat l : Bytes) : Bytes :=
  if hasPref pat l then l.drop pat.length else l

/-- Does `l` end with `pat`? (`absl::EndsWith`). -/
def hasSuff (pat l : Bytes) : Bool :=
  decide (pat.length ≤ l.length) && l.drop (l.length - pat.length) == pat

/-- `absl::StrReplaceAll(piece, {{kSpaceSymbol, " "}})`: every (leftmost,
non-overlapping) occurrence of the three marker bytes becomes one `0x20`. -/
def replaceSpaceSym : Bytes → Bytes
  | 0xE2 :: 0x96 :: 0x81 :: rest => 0x20 :: replaceSpaceSym rest
  | b :: rest => b :: replaceSpaceSym rest
  | [] => []

/-- The parameters `DecodeSentencePiece` reads from the loaded model proto
and the model kernel (the proto itself is present: the lambda lives inside a
`Decode` call that has already passed the readiness check). -/
structure DParams where
  hasTrainerSpec : Bool
  treat_whitespace_as_suffix : Bool
  add_dummy_prefix_flag : Bool
  remove_extra_whitespaces : Bool
  unk_surface : Bytes
  isControl : Int → Bool
  isUnknown : Int → Bool
  idToPiece : Int → Bytes

/-- The `DecodeSentencePiece` lambda of `Decode`: control pieces are
invisible, unknown pieces yield `unk_surface` (or the piece itself when its
spelling is not the canonical one), and normal pieces get the whitespace
stripping and meta-space replacement. `is_bos_ws` is the caller's
`text->empty()`, `is_eos_ws` its last-piece flag. -/
def decodeSentencePiece (P : DParams) (piece : Bytes) (id : Int)
    (is_bos_ws is_eos_ws : Bool) : Bytes :=
  if P.isControl id then []
  else if P.isUnknown id then
    if P.idToPiece id = piece then P.unk_surface else piece
  else
    let piece2 :=
      if ¬P.hasTrainerSpec ∨ ¬P.treat_whitespace_as_suffix then
        if is_bos_ws ∧ (P.add_dummy_prefix_flag ∨ P.remove_extra_whitespaces) then
          consumePref kSpaceSymbolB piece
        else piece
      else
        if is_eos_ws ∧ (P.add_dummy_prefix_flag ∨ P.remove_extra_whitespaces) then
          if hasSuff kSpaceSymbolB piece then piece.take (piece.length - 3)
          else piece
        else piece
    replaceSpaceSym piece2

/-! ### Special-id accessors -/

/-- What `unk_id` / `bos_id` / `eos_id` / `pad_id` consult: the model's
piece-to-id map, type predicates and special piece spellings, in the ready
(successfully loaded) state. -/
structure IdModel where
  pieceToId : String → Int
  isControl : Int → Bool
  isUnknown : Int → Bool
  unk_piece : String
  bos_piece : String
  eos_piece : String
  pad_piece : String

/-- `unk_id`: the id of the unk piece when that id is classified UNKNOWN,
`-1` otherwise. -/
def unk_id (m : IdModel) : Int :=
  let id := m.pieceToId m.unk_piece
  if m.isUnknown id then id else -1

/-- `bos_id`: the id of the bos piece when that id is classified CONTROL,
`-1` otherwise. -/
def bos_id (m : IdModel) : Int :=
  let id := m.pieceToId m.bos_piece
  if m.isControl id then id else -1

/-- `eos_id`: the id of the eos piece when that id is classified CONTROL,
`-1` otherwise. -/
def eos_id (m : IdModel) : Int :=
  let id := m.pieceToId m.eos_piece
  if m.isControl id then id else -1

/-- `pad_id`: the id of the pad piece when that id is classified CONTROL,
`-1` otherwise. -/
def pad_id (m : IdModel) : Int :=
  let id := m.pieceToId m.pad_piece
  if m.isControl id then id else -1

/-! ### Concrete instances used by witnesses and counterexamples -/

/-- A tiny concrete vocabulary: marker ids 1 and 2, piece `"a"` as 10, the
digit piece `"2"` as 12; everything else maps to 0. -/
def exP2i : String → Int := fun s =>
  if s = startRepeat then 1
  else if s = endRepeat then 2
  else if s = "a" then 10
  else if s = "2" then 12
  else 0

/-- Inverse direction of `exP2i` on the ids it produces. -/
def exI2p : Int → String := fun v =>
  if v = 1 then startRepeat
  else if v = 2 then endRepeat
  else if v = 10 then "a"
  else if v = 12 then "2"
  else ""

/-- A model without N-best support whose sampling result differs from its
greedy result (different ids for the same one-byte piece). -/
def exModelNoNBest : PModel where
  isControl := fun _ => false
  isUnknown := fun _ => false
  byteFallback := false
  pieceToId := fun _ => 0
  byteToPiece := fun _ => []
  bos_piece := []
  eos_piece := []
  encode := fun _ => [([97], 5)]
  sampleEncode := fun _ => [([97], 6)]
  nbestEncode := fun _ _ => []
  isNBestAvailable := false
  isSampleAvailable := true

/-- The same model with N-best support advertised. -/
def exModelNBest : PModel :=
  { exModelNoNBest with isNBestAvailable := true }

/-- The identity normalizer on a one-byte input: `norm_to_orig = [0, 1]`. -/
def exNrm : Bytes → Bytes × List Nat := fun input =>
  (input, List.range (input.length + 1))

/-- A byte-fallback model for the C4 witness: id 0 is UNKNOWN, byte `b` is
spelled as the three bytes `[60, b, 62]` with id `100 + b`. -/
def exModelBF : PModel where
  isControl := fun _ => false
  isUnknown := fun i => i = 0
  byteFallback := true
  pieceToId := fun w => 100 + w.getD 1 0
  byteToPiece := fun b => [60, b, 62]
  bos_piece := []
  eos_piece := []
  encode := fun _ => []
  sampleEncode := fun _ => []
  nbestEncode := fun _ _ => []
  isNBestAvailable := false
  isSampleAvailable := false

/-- A model for the C5/C6 witnesses: id 7 is CONTROL, everything else
NORMAL. -/
def exModelC : PModel where
  isControl := fun i => i = 7
  isUnknown := fun _ => false
  byteFallback := false
  pieceToId := fun _ => 0
  byteToPiece := fun _ => []
  bos_piece := []
  eos_piece := []
  encode := fun _ => []
  sampleEncode := fun _ => []
  nbestEncode := fun _ _ => []
  isNBestAvailable := false
  isSampleAvailable := false

/-- Decode parameters for the C7 witness: prefix-mode whitespace with
`add_dummy_prefix` set; no id is CONTROL or UNKNOWN. -/
def exDParams : DParams where
  hasTrainerSpec := true
  treat_whitespace_as_suffix := false
  add_dummy_prefix_flag := true
  remove_extra_whitespaces := false
  unk_surface := [32, 226, 129, 135, 32]
  isControl := fun _ => false
  isUnknown := fun _ => false
  idToPiece := fun _ => []

/-- Suffix-mode variant of `exDParams`. -/
def exDParamsSuffix : DParams :=
  { exDParams with treat_whitespace_as_suffix := true }

/-- A concrete `IdModel` for the C8 witness: `<unk>` at id 0 (UNKNOWN),
`<s>` at 1 and `</s>` at 2 (CONTROL), pad piece undefined (id 0, which is
not CONTROL). -/
def exIdModel : IdModel where
  pieceToId := fun s =>
    if s = "<unk>" then 0 else if s = "<s>" then 1 else if s = "</s>" then 2 else 0
  isControl := fun i => i = 1 ∨ i = 2
  isUnknown := fun i => i = 0
  unk_piece := "<unk>"
  bos_piece := "<s>"
  eos_piece := "</s>"
  pad_piece := "<pad>"

/-- Digit-polynomial value of a least-significant-first digit list. -/
def polyEval (l : List Int) : Int := l.foldr (fun d acc => d + 10 * acc) 0

theorem extractAux_congr :
    ∀ f g x : Nat, x ≤ f → x ≤ g → extractAux f x = extractAux g x := by
  intro f
  induction f with
  | zero => intro g x hf _; interval_cases x; cases g <;> rfl
  | succ f ih =>
    intro g x hf hg
    match x, g with
    | 0, g => cases g <;> rfl
    | x + 1, 0 => omega
    | x + 1, g + 1 =>
      show extractAux f ((x + 1) / 10) ++ _ = extractAux g ((x + 1) / 10) ++ _
      rw [ih g ((x + 1) / 10) (by omega) (by omega)]

/-- The defining recursion of `extract_each_digit` for positive `x`. -/
theorem extract_each_digit_pos (x : Nat) (hx : x ≠ 0) :
    extract_each_digit x = extract_each_digit (x / 10) ++ [x % 10] := by
  match x, hx with
  | x + 1, _ =>
    show extractAux x ((x + 1) / 10) ++ _ = _
    rw [extract_each_digit,
      extractAux_congr x ((x + 1) / 10) ((x + 1) / 10) (by omega) (by omega)]


theorem firstIdx_le_length {α : Type} [DecidableEq α] (s : α) :
    ∀ l : List α, firstIdx s l ≤ l.length := by
  intro l
  induction l with
  | nil => simp [firstIdx]
  | cons x xs ih =>
    by_cases hx : x = s
    · simp [firstIdx, hx]
    · simp [firstIdx, hx]
      omega

theorem firstIdx_of_not_mem {α : Type} [DecidableEq α] {s : α} :
    ∀ {l : List α}, s ∉ l → firstIdx s l = l.length := by
  intro l
  induction l with
  | nil => intro _; rfl
  | cons x xs ih =>
    intro h
    have hx : x ≠ s := fun he => h (he ▸ List.mem_cons_self x xs)
    have hxs : s ∉ xs := fun hm => h (List.mem_cons_of_mem x hm)
    simp [firstIdx, hx, ih hxs]

theorem firstIdx_lt_length_of_mem {α : Type} [DecidableEq α] {s : α} :
    ∀ {l : List α}, s ∈ l → firstIdx s l < l.length := by
  intro l
  induction l with
  | nil => intro h; cases h
  | cons x xs ih =>
    intro h
    by_cases hx : x = s
    · simp [firstIdx, hx]
    · have hm : s ∈ xs := by
        rcases List.mem_cons.mp h with h1 | h1
        · exact absurd h1.symm hx
        · exact h1
      simp only [firstIdx, if_neg hx, List.length_cons]
      exact Nat.succ_lt_succ (ih hm)

theorem firstIdx_append_of_not_mem {α : Type} [DecidableEq α] {s : α} :
    ∀ {a : List α} (l : List α), s ∉ a →
      firstIdx s (a ++ l) = a.length + firstIdx s l := by
  intro a
  induction a with
  | nil => intro l _; simp
  | cons x xs ih =>
    intro l h
    have hx : x ≠ s := fun he => h (he ▸ List.mem_cons_self x xs)
    have hxs : s ∉ xs := fun hm => h (List.mem_cons_of_mem x hm)
    calc firstIdx s ((x :: xs) ++ l) = firstIdx s (xs ++ l) + 1 := by
          simp [firstIdx, hx]
      _ = (xs.length + firstIdx s l) + 1 := by rw [ih l hxs]
      _ = (x :: xs).length + firstIdx s l := by simp [List.length_cons]; omega

theorem digitStr_ne_startRepeat (d : Nat) : digitStr d ≠ startRepeat := by
  intro h
  have h2 := congrArg (fun s => s.data.length) h
  have h3 : (1 : Nat) = 14 := h2
  omega

theorem digitStr_ne_endRepeat (d : Nat) : digitStr d ≠ endRepeat := by
  intro h
  have h2 := congrArg (fun s => s.data.length) h
  have h3 : (1 : Nat) = 12 := h2
  omega

theorem startRepeat_ne_endRepeat : startRepeat ≠ endRepeat := by decide

theorem not_mem_digitsToStrs_startRepeat (k : Nat) :
    startRepeat ∉ digitsToStrs k := by
  intro h
  rcases List.mem_map.mp h with ⟨d, _, hd⟩
  exact digitStr_ne_startRepeat d hd

theorem not_mem_digitsToStrs_endRepeat (k : Nat) :
    endRepeat ∉ digitsToStrs k := by
  intro h
  rcases List.mem_map.mp h with ⟨d, _, hd⟩
  exact digitStr_ne_endRepeat d hd

theorem extract_each_digit_le_nine (k : Nat) :
    ∀ d ∈ extract_each_digit k, d ≤ 9 := by
  induction k using Nat.strong_induction_on with
  | _ k ih =>
    intro d hd
    by_cases hk : k = 0
    · subst hk; cases hd
    · rw [extract_each_digit_pos k hk] at hd
      rcases List.mem_append.mp hd with h1 | h1
      · exact ih (k / 10) (Nat.div_lt_self (Nat.pos_of_ne_zero hk) (by omega)) d h1
      · rcases List.mem_singleton.mp h1 with rfl
        omega

theorem cppStoi_digitStr (d : Nat) (hd : d ≤ 9) :
    cppStoi (digitStr d) = some (d : Int) := by
  interval_cases d <;> decide

theorem mapM_cppStoi_digitStrs :
    ∀ l : List Nat, (∀ d ∈ l, d ≤ 9) →
      (l.map digitStr).mapM cppStoi = some (l.map Int.ofNat) := by
  intro l
  induction l with
  | nil => intro _; rfl
  | cons d ds ih =>
    intro h
    have hd : d ≤ 9 := h d (List.mem_cons_self d ds)
    have hds := ih (fun x hx => h x (List.mem_cons_of_mem d hx))
    rw [List.map_cons, List.mapM_cons, cppStoi_digitStr d hd, hds, List.map_cons]
    rfl

theorem vecToIntAux_eq :
    ∀ (l : List Int) (dec total : Int),
      vecToIntAux l dec total =
        total + dec * l.foldr (fun d acc => d + 10 * acc) 0 := by
  intro l
  induction l with
  | nil => intro dec total; simp [vecToIntAux]
  | cons d ds ih =>
    intro dec total
    simp only [vecToIntAux, List.foldr_cons, ih]
    ring

theorem polyEval_cons (x : Int) (l : List Int) :
    polyEval (x :: l) = x + 10 * polyEval l := rfl

theorem VectorToInt_eq_polyEval (v : List Int) :
    VectorToInt v = polyEval v.reverse := by
  rw [VectorToInt, vecToIntAux_eq]
  simp [polyEval]

theorem polyEval_reverse_extract (k : Nat) :
    polyEval (((extract_each_digit k).map Int.ofNat).reverse) = k := by
  induction k using Nat.strong_induction_on with
  | _ k ih =>
    by_cases hk : k = 0
    · subst hk; rfl
    · rw [extract_each_digit_pos k hk]
      have ihk := ih (k / 10) (Nat.div_lt_self (Nat.pos_of_ne_zero hk) (by omega))
      simp only [List.map_append, List.map_cons, List.map_nil,
        List.reverse_append, List.reverse_cons, List.reverse_nil,
        List.nil_append, List.singleton_append]
      rw [polyEval_cons, ihk]
      simp only [Int.ofNat_eq_coe]
      omega

theorem VectorToInt_extract (k : Nat) :
    VectorToInt ((extract_each_digit k).map Int.ofNat) = k := by
  rw [VectorToInt_eq_polyEval, polyEval_reverse_extract]

theorem getD_append_right_len {α : Type} (a l : List α) (n : Nat) (d : α) :
    (a ++ l).getD (a.length + n) d = l.getD n d := by
  simp [List.getD_eq_getElem?_getD,
    List.getElem?_append_right (Nat.le_add_right a.length n)]

theorem expand_none_of_firstIdx_zero (l : List String)
    (h : firstIdx startRepeat l = 0) : _expand_from_pieces l = none := by
  simp [_expand_from_pieces, h]

theorem expand_unchanged (l : List String)
    (h1 : firstIdx startRepeat l ≠ 0)
    (h2 : ¬(firstIdx startRepeat l < l.length ∧
        firstIdx endRepeat l < l.length)) :
    _expand_from_pieces l = some l := by
  simp only [_expand_from_pieces]
  rw [if_neg h1, if_neg h2]

theorem expand_eq_of (l : List String) (num : List Int)
    (h1 : firstIdx startRepeat l ≠ 0)
    (h2 : firstIdx startRepeat l < l.length)
    (h3 : firstIdx endRepeat l < l.length)
    (h4 : firstIdx startRepeat l + 1 ≤ firstIdx endRepeat l)
    (hnum : ((l.drop (firstIdx startRepeat l + 1)).take
        (firstIdx endRepeat l - firstIdx startRepeat l - 1)).mapM cppStoi =
      some num)
    (hc : ¬VectorToInt num - 1 < 0) :
    _expand_from_pieces l =
      some (l.take (firstIdx startRepeat l) ++
        List.replicate (VectorToInt num - 1).toNat
          (l.getD (firstIdx startRepeat l - 1) "") ++
        l.drop (firstIdx endRepeat l + 1)) := by
  simp only [_expand_from_pieces]
  rw [if_neg h1, if_pos ⟨h2, h3⟩, if_pos h4, hnum, Option.some_bind, if_neg hc]

theorem expand_some_inv (l l' : List String)
    (h : _expand_from_pieces l = some l') (hmem : startRepeat ∈ l) :
    (endRepeat ∉ l ∧ l' = l) ∨
      (∃ num,
        firstIdx startRepeat l ≠ 0 ∧
        firstIdx startRepeat l + 1 ≤ firstIdx endRepeat l ∧
        firstIdx endRepeat l < l.length ∧
        ((l.drop (firstIdx startRepeat l + 1)).take
            (firstIdx endRepeat l - firstIdx startRepeat l - 1)).mapM cppStoi =
          some num ∧
        ¬VectorToInt num - 1 < 0 ∧
        l' = l.take (firstIdx startRepeat l) ++
          List.replicate (VectorToInt num - 1).toNat
            (l.getD (firstIdx startRepeat l - 1) "") ++
          l.drop (firstIdx endRepeat l + 1)) := by
  have hsp_lt := firstIdx_lt_length_of_mem hmem
  simp only [_expand_from_pieces] at h
  by_cases h1 : firstIdx startRepeat l = 0
  · rw [if_pos h1] at h; cases h
  · rw [if_neg h1] at h
    by_cases h23 : firstIdx startRepeat l < l.length ∧
        firstIdx endRepeat l < l.length
    · rw [if_pos h23] at h
      by_cases h4 : firstIdx startRepeat l + 1 ≤ firstIdx endRepeat l
      · rw [if_pos h4] at h
        cases hnum : ((l.drop (firstIdx startRepeat l + 1)).take
            (firstIdx endRepeat l - firstIdx startRepeat l - 1)).mapM cppStoi with
        | none => rw [hnum, Option.none_bind] at h; cases h
        | some num =>
          rw [hnum, Option.some_bind] at h
          by_cases hc : VectorToInt num - 1 < 0
          · rw [if_pos hc] at h; cases h
          · rw [if_neg hc] at h
            right
            exact ⟨num, h1, h4, h23.2, rfl, hc, (Option.some.inj h).symm⟩
      · rw [if_neg h4] at h; cases h
    · rw [if_neg h23] at h
      left
      refine ⟨fun hem => h23 ⟨hsp_lt, firstIdx_lt_length_of_mem hem⟩, ?_⟩
      exact (Option.some.inj h).symm

theorem expand_step_append (a l l' : List String)
    (ha1 : startRepeat ∉ a) (ha2 : endRepeat ∉ a)
    (hmem : startRepeat ∈ l) (h : _expand_from_pieces l = some l') :
    _expand_from_pieces (a ++ l) = some (a ++ l') := by
  have hspA : firstIdx startRepeat (a ++ l) =
      a.length + firstIdx startRepeat l := firstIdx_append_of_not_mem l ha1
  have hepA : firstIdx endRepeat (a ++ l) =
      a.length + firstIdx endRepeat l := firstIdx_append_of_not_mem l ha2
  have hsp_lt := firstIdx_lt_length_of_mem hmem
  have h1 : firstIdx startRepeat l ≠ 0 := by
    intro h0
    rw [expand_none_of_firstIdx_zero l h0] at h
    cases h
  rcases expand_some_inv l l' h hmem with ⟨hep_nm, heq⟩ |
    ⟨num, _, h4, h3, hnum, hc, heq⟩
  · rw [heq]
    have hepl : firstIdx endRepeat l = l.length := firstIdx_of_not_mem hep_nm
    apply expand_unchanged
    · rw [hspA]; omega
    · rw [hepA, hepl]
      simp only [List.length_append, not_and]
      omega
  · have e4 : ((a ++ l).drop (firstIdx startRepeat (a ++ l) + 1)).take
        (firstIdx endRepeat (a ++ l) - firstIdx startRepeat (a ++ l) - 1) =
        (l.drop (firstIdx startRepeat l + 1)).take
          (firstIdx endRepeat l - firstIdx startRepeat l - 1) := by
      rw [hspA, hepA,
        show a.length + firstIdx startRepeat l + 1 =
          a.length + (firstIdx startRepeat l + 1) by omega,
        List.drop_append,
        show a.length + firstIdx endRepeat l -
            (a.length + firstIdx startRepeat l) - 1 =
          firstIdx endRepeat l - firstIdx startRepeat l - 1 by omega]
    have e1 : (a ++ l).take (firstIdx startRepeat (a ++ l)) =
        a ++ l.take (firstIdx startRepeat l) := by
      rw [hspA, List.take_append]
    have e2 : (a ++ l).getD (firstIdx startRepeat (a ++ l) - 1) "" =
        l.getD (firstIdx startRepeat l - 1) "" := by
      rw [hspA,
        show a.length + firstIdx startRepeat l - 1 =
          a.length + (firstIdx startRepeat l - 1) by omega,
        getD_append_right_len]
    have e3 : (a ++ l).drop (firstIdx endRepeat (a ++ l) + 1) =
        l.drop (firstIdx endRepeat l + 1) := by
      rw [hepA,
        show a.length + firstIdx endRepeat l + 1 =
          a.length + (firstIdx endRepeat l + 1) by omega,
        List.drop_append]
    rw [expand_eq_of (a ++ l) num
      (by rw [hspA]; omega)
      (by rw [hspA]; simp only [List.length_append]; omega)
      (by rw [hepA]; simp only [List.length_append]; omega)
      (by rw [hspA, hepA]; omega)
      (by rw [e4]; exact hnum) hc, e1, e2, e3, heq]
    simp [List.append_assoc]

theorem expandLoop_append (a : List String)
    (ha1 : startRepeat ∉ a) (ha2 : endRepeat ∉ a) :
    ∀ (fuel : Nat) (l out : List String), expandLoop fuel l = some out →
      expandLoop fuel (a ++ l) = some (a ++ out) := by
  intro fuel
  induction fuel with
  | zero => intro l out h; cases h
  | succ f ih =>
    intro l out h
    by_cases hm : startRepeat ∈ l
    · have hm' : startRepeat ∈ a ++ l := List.mem_append_right a hm
      simp only [expandLoop, if_pos hm] at h
      simp only [expandLoop, if_pos hm']
      cases hstep : _expand_from_pieces l with
      | none => rw [hstep] at h; cases h
      | some l2 =>
        rw [hstep] at h
        rw [expand_step_append a l l2 ha1 ha2 hm hstep]
        exact ih l2 out h
    · have hm' : startRepeat ∉ a ++ l := by
        intro hx
        rcases List.mem_append.mp hx with hy | hy
        exacts [ha1 hy, hm hy]
      simp only [expandLoop, if_neg hm] at h
      simp only [expandLoop, if_neg hm']
      rw [Option.some.inj h]

theorem expand_block (cur : String) (cnt : Nat) (L : List String)
    (hc1 : cur ≠ startRepeat) (hc2 : cur ≠ endRepeat) (hcnt : 2 ≤ cnt) :
    _expand_from_pieces
        (cur :: startRepeat :: ((digitsToStrs cnt ++ [endRepeat]) ++ L)) =
      some (List.replicate cnt cur ++ L) := by
  obtain ⟨k, rfl⟩ : ∃ k, cnt = k + 2 := ⟨cnt - 2, by omega⟩
  have hd9 := extract_each_digit_le_nine (k + 2)
  have hsp : firstIdx startRepeat
      (cur :: startRepeat :: ((digitsToStrs (k + 2) ++ [endRepeat]) ++ L)) = 1 := by
    simp [firstIdx, hc1]
  have h0 : firstIdx endRepeat ((digitsToStrs (k + 2) ++ [endRepeat]) ++ L) =
      (digitsToStrs (k + 2)).length := by
    rw [List.append_assoc, firstIdx_append_of_not_mem ([endRepeat] ++ L)
      (not_mem_digitsToStrs_endRepeat (k + 2))]
    simp [firstIdx]
  have hep : firstIdx endRepeat
      (cur :: startRepeat :: ((digitsToStrs (k + 2) ++ [endRepeat]) ++ L)) =
      (digitsToStrs (k + 2)).length + 2 := by
    simp only [firstIdx, if_neg hc2, if_neg startRepeat_ne_endRepeat, h0]
  have hlen : (cur :: startRepeat ::
      ((digitsToStrs (k + 2) ++ [endRepeat]) ++ L)).length =
      (digitsToStrs (k + 2)).length + L.length + 3 := by
    simp only [List.length_cons, List.length_append, List.length_singleton, List.length_nil]
    omega
  have hVec : VectorToInt ((extract_each_digit (k + 2)).map Int.ofNat) =
      ((k + 2 : Nat) : Int) := VectorToInt_extract (k + 2)
  have hcpos : ¬VectorToInt ((extract_each_digit (k + 2)).map Int.ofNat) - 1 < 0 := by
    rw [hVec]; omega
  have hnum : (((cur :: startRepeat ::
      ((digitsToStrs (k + 2) ++ [endRepeat]) ++ L)).drop (1 + 1)).take
      ((digitsToStrs (k + 2)).length + 2 - 1 - 1)).mapM cppStoi =
      some ((extract_each_digit (k + 2)).map Int.ofNat) := by
    rw [show (digitsToStrs (k + 2)).length + 2 - 1 - 1 =
        (digitsToStrs (k + 2)).length by omega]
    have hdrop : (cur :: startRepeat ::
        ((digitsToStrs (k + 2) ++ [endRepeat]) ++ L)).drop (1 + 1) =
        (digitsToStrs (k + 2) ++ [endRepeat]) ++ L := rfl
    rw [hdrop, List.append_assoc, List.take_left]
    exact mapM_cppStoi_digitStrs (extract_each_digit (k + 2)) hd9
  rw [expand_eq_of _ ((extract_each_digit (k + 2)).map Int.ofNat)
    (by rw [hsp]; omega)
    (by rw [hsp, hlen]; omega)
    (by rw [hep, hlen]; omega)
    (by rw [hsp, hep]; omega)
    (by rw [hsp, hep]; exact hnum) hcpos, hsp, hep, hVec]
  have htake : (cur :: startRepeat ::
      ((digitsToStrs (k + 2) ++ [endRepeat]) ++ L)).take 1 = [cur] := rfl
  have hgetD : (cur :: startRepeat ::
      ((digitsToStrs (k + 2) ++ [endRepeat]) ++ L)).getD (1 - 1) "" = cur := rfl
  have hshape : cur :: startRepeat ::
      ((digitsToStrs (k + 2) ++ [endRepeat]) ++ L) =
      ([cur, startRepeat] ++ digitsToStrs (k + 2)) ++ ([endRepeat] ++ L) := by
    simp [List.append_assoc]
  have hdrop2 : (cur :: startRepeat ::
      ((digitsToStrs (k + 2) ++ [endRepeat]) ++ L)).drop
      ((digitsToStrs (k + 2)).length + 2 + 1) = L := by
    rw [hshape,
      show (digitsToStrs (k + 2)).length + 2 + 1 =
        ([cur, startRepeat] ++ digitsToStrs (k + 2)).length + 1 by
          simp only [List.length_append, List.length_cons, List.length_nil]
          omega,
      List.drop_append]
    rfl
  rw [htake, hgetD, hdrop2,
    show ((((k : Nat) + 2 : Nat) : Int) - 1).toNat = k + 1 by omega]
  simp [List.replicate_succ]

theorem rleEmit_expands (cur : String) (cnt : Nat) (L out : List String)
    (hc1 : cur ≠ startRepeat) (hc2 : cur ≠ endRepeat) (hcnt : 1 ≤ cnt)
    (h : ExpandsTo L out) :
    ExpandsTo (rleEmit cur cnt ++ L) (List.replicate cnt cur ++ out) := by
  obtain ⟨fuel, hf⟩ := h
  have hrep_s : startRepeat ∉ List.replicate cnt cur := by
    intro hx
    exact hc1 ((List.mem_replicate.mp hx).2.symm)
  have hrep_e : endRepeat ∉ List.replicate cnt cur := by
    intro hx
    exact hc2 ((List.mem_replicate.mp hx).2.symm)
  by_cases h1 : cnt > 1
  · refine ⟨fuel + 1, ?_⟩
    have hshape : rleEmit cur cnt ++ L =
        cur :: startRepeat :: ((digitsToStrs cnt ++ [endRepeat]) ++ L) := by
      simp [rleEmit, if_pos h1, List.append_assoc]
    rw [hshape]
    have hmem : startRepeat ∈
        cur :: startRepeat :: ((digitsToStrs cnt ++ [endRepeat]) ++ L) := by
      simp
    simp only [expandLoop]
    rw [if_pos hmem, expand_block cur cnt L hc1 hc2 (by omega)]
    exact expandLoop_append (List.replicate cnt cur) hrep_s hrep_e fuel L out hf
  · have hcnt1 : cnt = 1 := by omega
    subst hcnt1
    refine ⟨fuel, ?_⟩
    have := expandLoop_append [cur] (by simp [Ne.symm hc1]) (by simp [Ne.symm hc2])
      fuel L out hf
    simpa [rleEmit] using this

theorem rleAux_expands :
    ∀ (xs : List String) (cur : String) (cnt : Nat),
      cur ≠ startRepeat → cur ≠ endRepeat → 1 ≤ cnt →
      startRepeat ∉ xs → endRepeat ∉ xs →
      ExpandsTo (rleAux cur cnt xs) (List.replicate cnt cur ++ xs) := by
  intro xs
  induction xs with
  | nil =>
    intro cur cnt hc1 hc2 hcnt _ _
    have h0 : ExpandsTo ([] : List String) [] := ⟨1, by decide⟩
    have := rleEmit_expands cur cnt [] [] hc1 hc2 hcnt h0
    simpa [rleAux] using this
  | cons y ys ih =>
    intro cur cnt hc1 hc2 hcnt hs he
    have hys_s : startRepeat ∉ ys := fun hx => hs (List.mem_cons_of_mem y hx)
    have hys_e : endRepeat ∉ ys := fun hx => he (List.mem_cons_of_mem y hx)
    have hy_s : y ≠ startRepeat := fun hx => hs (hx ▸ List.mem_cons_self y ys)
    have hy_e : y ≠ endRepeat := fun hx => he (hx ▸ List.mem_cons_self y ys)
    by_cases hy : y = cur
    · have hstep := ih cur (cnt + 1) hc1 hc2 (by omega) hys_s hys_e
      have hrw : List.replicate (cnt + 1) cur ++ ys =
          List.replicate cnt cur ++ (y :: ys) := by
        rw [List.replicate_succ' cnt cur, hy, List.append_assoc,
          List.singleton_append]
      rw [hrw] at hstep
      simpa [rleAux, if_pos hy] using hstep
    · have hstep := rleEmit_expands cur cnt (rleAux y 1 ys)
        (List.replicate 1 y ++ ys) hc1 hc2 hcnt
        (ih y 1 hy_s hy_e le_rfl hys_s hys_e)
      have hrw : List.replicate 1 y ++ ys = y :: ys := by
        simp [List.replicate_succ]
      rw [hrw] at hstep
      simpa [rleAux, if_neg hy] using hstep

/-- The roundtrip of the RLE layer: on a piece sequence free of both
markers, the unfold loop applied to the fold reaches exactly the original
sequence. -/
theorem rle_expands (p : List String)
    (h1 : startRepeat ∉ p) (h2 : endRepeat ∉ p) :
    ExpandsTo (rle p) p := by
  cases p with
  | nil => exact ⟨1, by decide⟩
  | cons x xs =>
    have hxs_s : startRepeat ∉ xs := fun hx => h1 (List.mem_cons_of_mem x hx)
    have hxs_e : endRepeat ∉ xs := fun hx => h2 (List.mem_cons_of_mem x hx)
    have hx_s : x ≠ startRepeat := fun hx => h1 (hx ▸ List.mem_cons_self x xs)
    have hx_e : x ≠ endRepeat := fun hx => h2 (hx ▸ List.mem_cons_self x xs)
    have := rleAux_expands xs x 1 hx_s hx_e le_rfl hxs_s hxs_e
    simpa [rle, List.replicate_succ] using this

example : rle ["a", "a", "a", "b", "b"] =
    ["a", startRepeat, "3", endRepeat, "b", startRepeat, "2", endRepeat] := by
  decide

example : expandLoop 3 ["a", startRepeat, "3", endRepeat, "b", startRepeat, "2", endRepeat] =
    some ["a", "a", "a", "b", "b"] := by decide

example : expandLoop 9 ["a", startRepeat] = none := by decide

/-- C1: for every piece sequence `p` that contains neither the marker
`"(#startrepeat)"` nor `"(#endrepeat)"` (which also rules out any digit
piece standing adjacent to a marker inside `p`), unfolding the fold of `p`
- the `expand_from_pieces` loop applied to the output of `rle` - returns
exactly `p`. -/
theorem C1_unfold_fold_roundtrip (p : List String)
    (h1 : startRepeat ∉ p) (h2 : endRepeat ∉ p) :
    ExpandsTo (rle p) p :=
  rle_expands p h1 h2

/-- Witness for C1 at the concrete sequence of scenario S2. -/
theorem C1_witness :
    (startRepeat ∉ (["a", "a", "a", "b", "b"] : List String) ∧
      endRepeat ∉ (["a", "a", "a", "b", "b"] : List String)) ∧
    ExpandsTo (rle ["a", "a", "a", "b", "b"]) ["a", "a", "a", "b", "b"] :=
  ⟨⟨by decide, by decide⟩,
    C1_unfold_fold_roundtrip ["a", "a", "a", "b", "b"] (by decide) (by decide)⟩

/-- C9 counterexample: on `["a", "(#startrepeat)"]` - a sequence containing
a `(#startrepeat)` with no `(#endrepeat)` after it - the unfold loop never
reaches a marker-free sequence: `_expand_from_pieces` returns its input
unchanged (the guard `it2 != pieces.end()` fails), so the `while` loop runs
forever, refuting the claim that the loop terminates on every input. -/
theorem C9_counterexample : ¬ExpandTerminates ["a", startRepeat] := by
  have key : ∀ fuel, expandLoop fuel ["a", startRepeat] = none := by
    intro fuel
    induction fuel with
    | zero => rfl
    | succ f ih =>
      exact (rfl : expandLoop (f + 1) ["a", startRepeat] =
        expandLoop f ["a", startRepeat]).trans ih
  rintro ⟨fuel, out, hout⟩
  rw [key fuel] at hout
  cases hout

/-- C9 amended: the unfold loop terminates - reaches a marker-free
sequence - on every sequence the fold can produce, namely `rle p` for any
`p` free of both markers; it need not terminate on arbitrary sequences
(see the counterexample with an unmatched `(#startrepeat)`). -/
theorem C9_amended_terminates (p : List String)
    (h1 : startRepeat ∉ p) (h2 : endRepeat ∉ p) :
    ExpandTerminates (rle p) := by
  obtain ⟨fuel, hf⟩ := rle_expands p h1 h2
  exact ⟨fuel, p, hf⟩

/-- Witness for the amended C9 at a concrete folded sequence. -/
theorem C9_witness :
    (startRepeat ∉ (["b", "b"] : List String) ∧
      endRepeat ∉ (["b", "b"] : List String)) ∧
    ExpandTerminates (rle ["b", "b"]) :=
  ⟨⟨by decide, by decide⟩, C9_amended_terminates ["b", "b"] (by decide) (by decide)⟩

/-- C10 counterexample: for the sequence whose first element is the
`(#startrepeat)` marker, the read of the element immediately preceding the
first occurrence of the marker is NOT within bounds (the C++ evaluates
`pieces[0 - 1]`); the embedding accordingly maps `_expand_from_pieces` of it
to `none` (undefined behaviour), refuting in particular the claim's clause
that the read is in bounds when the marker is the first element. -/
theorem C10_counterexample :
    startRepeat ∈ ([startRepeat] : List String) ∧
      ¬precedingReadInBounds [startRepeat] ∧
      _expand_from_pieces [startRepeat] = none := by
  refine ⟨by decide, ?_, by decide⟩
  intro h
  have h1 := h.1
  simp [firstIdx] at h1

/-- C10 amended: whenever the sequence contains `(#startrepeat)` and its
first occurrence is at a positive index, the read of the immediately
preceding element is within bounds. -/
theorem C10_amended_read_in_bounds (pieces : List String)
    (hmem : startRepeat ∈ pieces)
    (hpos : firstIdx startRepeat pieces ≠ 0) :
    precedingReadInBounds pieces := by
  have hlt := firstIdx_lt_length_of_mem hmem
  exact ⟨by omega, by omega⟩

/-- Witness for the amended C10. -/
theorem C10_witness :
    (startRepeat ∈ (["x", startRepeat] : List String) ∧
      firstIdx startRepeat ["x", startRepeat] ≠ 0) ∧
    precedingReadInBounds ["x", startRepeat] :=
  ⟨⟨by decide, by decide⟩,
    C10_amended_read_in_bounds ["x", startRepeat] (by decide) (by decide)⟩

/-- C2 (code bug): the id-layer unfold disagrees with the string-layer
unfold. On the fold of two copies of piece `"a"` (ids `[10, 1, 12, 2]`
under the concrete vocabulary, i.e. `a (#startrepeat) 2 (#endrepeat)`),
`expand_from_ids` yields THREE copies of id 10 - it inserts
`VectorToInt(num)` copies after the kept symbol instead of
`VectorToInt(num) - 1` - while `expand_from_pieces` yields the two copies
of `"a"`, whose image under `PieceToId` is `[10, 10]` and not
`[10, 10, 10]`. -/
theorem C2_id_unfold_off_by_one :
    expandIdsLoop exP2i exI2p 2 [10, 1, 12, 2] = some [10, 10, 10] ∧
    expandLoop 2 ["a", startRepeat, "2", endRepeat] = some ["a", "a"] ∧
    List.map exP2i ["a", "a"] = [10, 10] ∧
    ([10, 10] : List Int) ≠ [10, 10, 10] :=
  ⟨by decide, by decide, by decide, by decide⟩

theorem getD_range_map {α : Type} (f : Nat → α) (n i : Nat) (d : α)
    (h : i < n) : ((List.range n).map f).getD i d = f i := by
  simp [List.getD_eq_getElem?_getD, List.getElem?_map, List.getElem?_range h]

theorem getD_mono_of_pairwise (l : List Nat) (h : l.Pairwise (· ≤ ·)) :
    ∀ i j, i ≤ j → j < l.length → l.getD i 0 ≤ l.getD j 0 := by
  intro i j hij hj
  have hi : i < l.length := by omega
  rw [List.getD_eq_getElem l 0 hi, List.getD_eq_getElem l 0 hj]
  rcases Nat.eq_or_lt_of_le hij with rfl | hlt
  · exact le_refl _
  · have hp := (List.pairwise_iff_get.mp h) ⟨i, hi⟩ ⟨j, hj⟩ hlt
    simpa [List.get_eq_getElem] using hp

theorem getD_le_of_forall_mem (l : List Nat) (B : Nat)
    (h : ∀ v ∈ l, v ≤ B) (i : Nat) (hi : i < l.length) : l.getD i 0 ≤ B := by
  refine h _ ?_
  rw [List.getD_eq_getElem l 0 hi]
  exact List.getElem_mem hi

theorem populateStep_empty (input : Bytes) (n2o : List Nat) (m : PModel)
    (st : PState) (id : Int) :
    populateStep input n2o m st [] id = none := by
  simp [populateStep]

theorem populateStep_control (input : Bytes) (n2o : List Nat) (m : PModel)
    (st : PState) (w : Bytes) (id : Int)
    (hw : w ≠ []) (hctl : m.isControl id = true) :
    populateStep input n2o m st w id =
      some ⟨st.consumed, m.isUnknown id,
        st.recs ++ [⟨w, id, [], n2o.getD st.consumed 0, n2o.getD st.consumed 0⟩]⟩ := by
  simp only [populateStep]
  rw [if_neg hw, if_pos hctl]

theorem populateStep_noncontrol (input : Bytes) (n2o : List Nat) (m : PModel)
    (st : PState) (w : Bytes) (id : Int)
    (hw : w ≠ []) (hctl : m.isControl id = false)
    (hb : st.consumed < n2o.length)
    (he : st.consumed + w.length < n2o.length)
    (hob : n2o.getD st.consumed 0 ≤ input.length)
    (hoe : n2o.getD (st.consumed + w.length) 0 ≤ input.length)
    (hbe : n2o.getD st.consumed 0 ≤ n2o.getD (st.consumed + w.length) 0) :
    populateStep input n2o m st w id =
      some ⟨st.consumed + w.length, m.isUnknown id,
        if m.isUnknown id && m.byteFallback then
          st.recs ++ byteFallbackRecs m w
            (clippedSubstr input (n2o.getD st.consumed 0)
              (n2o.getD (st.consumed + w.length) 0 - n2o.getD st.consumed 0))
            (n2o.getD st.consumed 0) (n2o.getD (st.consumed + w.length) 0)
        else if st.is_prev_unk && m.isUnknown id then
          modifyLast
            (fun sp =>
              ⟨sp.piece ++ w, sp.id,
                sp.surface ++ clippedSubstr input (n2o.getD st.consumed 0)
                  (n2o.getD (st.consumed + w.length) 0 - n2o.getD st.consumed 0),
                sp.begin_, n2o.getD (st.consumed + w.length) 0⟩)
            st.recs
        else
          st.recs ++ [⟨w, id,
            clippedSubstr input (n2o.getD st.consumed 0)
              (n2o.getD (st.consumed + w.length) 0 - n2o.getD st.consumed 0),
            n2o.getD st.consumed 0, n2o.getD (st.consumed + w.length) 0⟩]⟩ := by
  simp only [populateStep]
  rw [if_neg hw, if_neg (fun hcc => Bool.false_ne_true (hctl ▸ hcc)),
    if_pos hb, if_pos he, if_pos hob, if_pos hoe, if_pos hbe]

theorem populateStep_overrun (input : Bytes) (n2o : List Nat) (m : PModel)
    (st : PState) (w : Bytes) (id : Int)
    (hw : w ≠ []) (hctl : m.isControl id = false)
    (hb : st.consumed < n2o.length)
    (hover : ¬st.consumed + w.length < n2o.length) :
    populateStep input n2o m st w id = none := by
  simp only [populateStep]
  rw [if_neg hw, if_neg (fun hcc => Bool.false_ne_true (hctl ▸ hcc)),
    if_pos hb, if_neg hover]

theorem popLoop_char (input : Bytes) (n2o : List Nat) (m : PModel) (S : Nat)
    (hlen : n2o.length = S + 1)
    (hval : ∀ v ∈ n2o, v ≤ input.length)
    (hsort : n2o.Pairwise (· ≤ ·)) :
    ∀ (result : List (Bytes × Int)) (c : Nat) (prev : Bool)
      (recs : List SPiece), c ≤ S →
      ((popLoop input n2o m ⟨c, prev, recs⟩ result = none ↔
        ((∃ p ∈ result, p.1 = []) ∨ S < c + sumNC m result)) ∧
       (∀ st2, popLoop input n2o m ⟨c, prev, recs⟩ result = some st2 →
         st2.consumed = c + sumNC m result)) := by
  have hmono := getD_mono_of_pairwise n2o hsort
  intro result
  induction result with
  | nil =>
    intro c prev recs hc
    constructor
    · simp only [popLoop, sumNC]
      constructor
      · intro h; cases h
      · intro h
        rcases h with ⟨p, hp, _⟩ | h
        · cases hp
        · omega
    · intro st2 h
      simp only [popLoop] at h
      rw [← Option.some.inj h]
      simp [sumNC]
  | cons p rest ih =>
    obtain ⟨w, id⟩ := p
    intro c prev recs hc
    by_cases hw : w = []
    · subst hw
      have hstep := populateStep_empty input n2o m ⟨c, prev, recs⟩ id
      constructor
      · simp only [popLoop, hstep]
        constructor
        · intro _
          exact Or.inl ⟨([], id), List.mem_cons_self _ _, rfl⟩
        · intro _; trivial
      · intro st2 h
        simp only [popLoop, hstep] at h
        exact Option.noConfusion h
    · by_cases hctl : m.isControl id = true
      · have hstep := populateStep_control input n2o m ⟨c, prev, recs⟩ w id hw hctl
        have hsum : sumNC m ((w, id) :: rest) = sumNC m rest := by
          simp [sumNC, hctl]
        constructor
        · simp only [popLoop, hstep]
          rw [(ih c (m.isUnknown id) _ hc).1, hsum]
          constructor
          · intro h
            rcases h with ⟨q, hq, hq1⟩ | h
            · exact Or.inl ⟨q, List.mem_cons_of_mem _ hq, hq1⟩
            · exact Or.inr h
          · intro h
            rcases h with ⟨q, hq, hq1⟩ | h
            · rcases List.mem_cons.mp hq with rfl | hq2
              · exact absurd hq1 hw
              · exact Or.inl ⟨q, hq2, hq1⟩
            · exact Or.inr h
        · intro st2 h
          simp only [popLoop, hstep] at h
          rw [(ih c (m.isUnknown id) _ hc).2 st2 h, hsum]
      · have hctl' : m.isControl id = false := by
          cases hcc : m.isControl id
          · rfl
          · exact absurd hcc hctl
        have hsum : sumNC m ((w, id) :: rest) = w.length + sumNC m rest := by
          simp [sumNC, hctl']
        have hb : (⟨c, prev, recs⟩ : PState).consumed < n2o.length := by
          show c < n2o.length
          omega
        have hwpos : 0 < w.length := List.length_pos.mpr hw
        by_cases hle : c + w.length ≤ S
        · have he : (⟨c, prev, recs⟩ : PState).consumed + w.length < n2o.length := by
            show c + w.length < n2o.length
            omega
          have hstep := populateStep_noncontrol input n2o m ⟨c, prev, recs⟩ w id
            hw hctl' hb he
            (getD_le_of_forall_mem n2o input.length hval c hb)
            (getD_le_of_forall_mem n2o input.length hval (c + w.length) he)
            (hmono c (c + w.length) (by omega) he)
          constructor
          · simp only [popLoop, hstep]
            rw [(ih (c + w.length) (m.isUnknown id) _ hle).1, hsum]
            constructor
            · intro h
              rcases h with ⟨q, hq, hq1⟩ | h
              · exact Or.inl ⟨q, List.mem_cons_of_mem _ hq, hq1⟩
              · exact Or.inr (by omega)
            · intro h
              rcases h with ⟨q, hq, hq1⟩ | h
              · rcases List.mem_cons.mp hq with rfl | hq2
                · exact absurd hq1 hw
                · exact Or.inl ⟨q, hq2, hq1⟩
              · exact Or.inr (by omega)
          · intro st2 h
            simp only [popLoop, hstep] at h
            rw [(ih (c + w.length) (m.isUnknown id) _ hle).2 st2 h, hsum]
            omega
        · have hstep := populateStep_overrun input n2o m ⟨c, prev, recs⟩ w id
            hw hctl' hb (by show ¬c + w.length < n2o.length; omega)
          constructor
          · simp only [popLoop, hstep]
            constructor
            · intro _
              exact Or.inr (by omega)
            · intro _; trivial
          · intro st2 h
            simp only [popLoop, hstep] at h
            exact Option.noConfusion h

/-- C6: with a well-formed `norm_to_orig` map (length `|normalized| + 1`,
values bounded by the input length, monotone), the encode walk fails -
with an Internal error in the C++ - exactly when the model output violates
the walk's invariants: some model-emitted piece is empty, or the total
byte length of the non-control pieces (the final `consumed`) differs from
the length of the normalized input; otherwise all checks pass and the
result is produced. -/
theorem C6_encode_error_iff (input normalized : Bytes) (n2o : List Nat)
    (m : PModel) (opts : List ExtraOption) (result : List (Bytes × Int))
    (hlen : n2o.length = normalized.length + 1)
    (hval : ∀ v ∈ n2o, v ≤ input.length)
    (hsort : n2o.Pairwise (· ≤ ·)) :
    populate input normalized n2o m opts result = none ↔
      ((∃ p ∈ result, p.1 = []) ∨ sumNC m result ≠ normalized.length) := by
  have hchar := popLoop_char input n2o m normalized.length hlen hval hsort
    result 0 false [] (Nat.zero_le _)
  obtain ⟨hnone, hsome⟩ := hchar
  cases hpop : popLoop input n2o m ⟨0, false, []⟩ result with
  | none =>
    rw [hpop] at hnone
    have hr := hnone.mp rfl
    simp only [populate, hpop, Option.none_bind]
    constructor
    · intro _
      rcases hr with h | h
      · exact Or.inl h
      · exact Or.inr (by omega)
    · intro _; trivial
  | some st =>
    rw [hpop] at hnone hsome
    have hcons := hsome st rfl
    have hnn : ¬((∃ p ∈ result, p.1 = []) ∨
        normalized.length < 0 + sumNC m result) := by
      intro h
      exact Option.noConfusion (hnone.mpr h)
    push_neg at hnn
    obtain ⟨hne, hle⟩ := hnn
    simp only [populate, hpop, Option.some_bind]
    by_cases heq : st.consumed = normalized.length
    · rw [if_pos heq]
      constructor
      · intro h; cases h
      · intro h
        rcases h with ⟨q, hq, hq1⟩ | h
        · exact absurd hq1 (hne q hq)
        · omega
    · rw [if_neg heq]
      constructor
      · intro _
        exact Or.inr (by omega)
      · intro _; rfl

/-- C5: a piece whose id the model classifies as CONTROL is emitted as one
record whose `begin_` and `end_` both equal `norm_to_orig[consumed]`, and
emitting it leaves the `consumed` cursor unchanged. -/
theorem C5_control_piece (input : Bytes) (n2o : List Nat) (m : PModel)
    (st : PState) (w : Bytes) (id : Int)
    (hw : w ≠ []) (hctl : m.isControl id = true) :
    ∃ r : SPiece,
      populateStep input n2o m st w id =
        some ⟨st.consumed, m.isUnknown id, st.recs ++ [r]⟩ ∧
      r.begin_ = r.end_ ∧ r.begin_ = n2o.getD st.consumed 0 ∧
      r.piece = w ∧ r.id = id :=
  ⟨⟨w, id, [], n2o.getD st.consumed 0, n2o.getD st.consumed 0⟩,
    populateStep_control input n2o m st w id hw hctl, rfl, rfl, rfl, rfl⟩

/-- Witness for C5 at a concrete control piece. -/
theorem C5_witness :
    (([60] : Bytes) ≠ [] ∧ exModelC.isControl 7 = true) ∧
    ∃ r : SPiece,
      populateStep [97] [0, 1] exModelC ⟨0, false, []⟩ [60] 7 =
        some ⟨(⟨0, false, []⟩ : PState).consumed, exModelC.isUnknown 7,
          (⟨0, false, []⟩ : PState).recs ++ [r]⟩ ∧
      r.begin_ = r.end_ ∧
      r.begin_ = ([0, 1] : List Nat).getD (⟨0, false, []⟩ : PState).consumed 0 ∧
      r.piece = [60] ∧ r.id = 7 :=
  ⟨⟨by decide, by decide⟩,
    C5_control_piece [97] [0, 1] exModelC ⟨0, false, []⟩ [60] 7
      (by decide) (by decide)⟩

/-- C4: when the model emits `(w, id)` with `id` UNKNOWN and byte-fallback
enabled, the walk appends exactly `|w|` records, one per byte of `w`, each
carrying that byte's piece spelling (through `ByteToPiece`) and its id
(through `PieceToId`); all but the last have `begin_ = end_ = orig_begin`
and empty surface, and the last carries the full surface and the span
`[orig_begin, orig_end)`. -/
theorem byteFallbackRecs_getD (m : PModel) (w surface : Bytes) (ob oe : Nat)
    (i : Nat) (h : i < w.length) :
    (byteFallbackRecs m w surface ob oe).getD i default =
      (if i = w.length - 1 then
        (⟨m.byteToPiece (w.getD i 0),
          m.pieceToId (m.byteToPiece (w.getD i 0)), surface, ob, oe⟩ : SPiece)
      else
        ⟨m.byteToPiece (w.getD i 0),
          m.pieceToId (m.byteToPiece (w.getD i 0)), [], ob, ob⟩) := by
  unfold byteFallbackRecs
  rw [getD_range_map _ w.length i default h]

theorem C4_byte_fallback (input : Bytes) (n2o : List Nat) (m : PModel)
    (st : PState) (w : Bytes) (id : Int)
    (hw : w ≠ []) (hctl : m.isControl id = false)
    (hunk : m.isUnknown id = true) (hbf : m.byteFallback = true)
    (hb : st.consumed < n2o.length)
    (he : st.consumed + w.length < n2o.length)
    (hob : n2o.getD st.consumed 0 ≤ input.length)
    (hoe : n2o.getD (st.consumed + w.length) 0 ≤ input.length)
    (hbe : n2o.getD st.consumed 0 ≤ n2o.getD (st.consumed + w.length) 0) :
    ∃ blocks : List SPiece,
      populateStep input n2o m st w id =
        some ⟨st.consumed + w.length, m.isUnknown id, st.recs ++ blocks⟩ ∧
      blocks.length = w.length ∧
      (∀ i, i < w.length →
        (blocks.getD i default).piece = m.byteToPiece (w.getD i 0) ∧
        (blocks.getD i default).id = m.pieceToId (m.byteToPiece (w.getD i 0))) ∧
      (∀ i, i + 1 < w.length →
        (blocks.getD i default).begin_ = n2o.getD st.consumed 0 ∧
        (blocks.getD i default).end_ = n2o.getD st.consumed 0 ∧
        (blocks.getD i default).surface = []) ∧
      (blocks.getD (w.length - 1) default).surface =
        clippedSubstr input (n2o.getD st.consumed 0)
          (n2o.getD (st.consumed + w.length) 0 - n2o.getD st.consumed 0) ∧
      (blocks.getD (w.length - 1) default).begin_ = n2o.getD st.consumed 0 ∧
      (blocks.getD (w.length - 1) default).end_ =
        n2o.getD (st.consumed + w.length) 0 := by
  have hwpos : 0 < w.length := List.length_pos.mpr hw
  refine ⟨byteFallbackRecs m w
    (clippedSubstr input (n2o.getD st.consumed 0)
      (n2o.getD (st.consumed + w.length) 0 - n2o.getD st.consumed 0))
    (n2o.getD st.consumed 0) (n2o.getD (st.consumed + w.length) 0),
    ?_, ?_, ?_, ?_, ?_, ?_, ?_⟩
  · rw [populateStep_noncontrol input n2o m st w id hw hctl hb he hob hoe hbe]
    rw [if_pos (by rw [hunk, hbf]; rfl)]
  · simp [byteFallbackRecs]
  · intro i hi
    rw [byteFallbackRecs_getD m w _ _ _ i hi]
    by_cases hlast : i = w.length - 1
    · rw [if_pos hlast]
      exact ⟨rfl, rfl⟩
    · rw [if_neg hlast]
      exact ⟨rfl, rfl⟩
  · intro i hi
    have hlast : ¬i = w.length - 1 := by omega
    rw [byteFallbackRecs_getD m w _ _ _ i (by omega), if_neg hlast]
    exact ⟨rfl, rfl, rfl⟩
  · rw [byteFallbackRecs_getD m w _ _ _ (w.length - 1) (by omega), if_pos rfl]
  · rw [byteFallbackRecs_getD m w _ _ _ (w.length - 1) (by omega), if_pos rfl]
  · rw [byteFallbackRecs_getD m w _ _ _ (w.length - 1) (by omega), if_pos rfl]

/-- Witness for C4: the two-byte unknown piece `[226, 130]` under the
byte-fallback model. -/
theorem C4_witness :
    (([226, 130] : Bytes) ≠ [] ∧ exModelBF.isControl 0 = false ∧
      exModelBF.isUnknown 0 = true ∧ exModelBF.byteFallback = true ∧
      (0 : Nat) < ([0, 1, 2] : List Nat).length ∧
      0 + ([226, 130] : Bytes).length < ([0, 1, 2] : List Nat).length) ∧
    ∃ blocks : List SPiece,
      populateStep [226, 130] [0, 1, 2] exModelBF ⟨0, false, []⟩ [226, 130] 0 =
        some ⟨(⟨0, false, []⟩ : PState).consumed + ([226, 130] : Bytes).length,
          exModelBF.isUnknown 0, (⟨0, false, []⟩ : PState).recs ++ blocks⟩ ∧
      blocks.length = ([226, 130] : Bytes).length ∧
      (∀ i, i < ([226, 130] : Bytes).length →
        (blocks.getD i default).piece =
          exModelBF.byteToPiece (([226, 130] : Bytes).getD i 0) ∧
        (blocks.getD i default).id =
          exModelBF.pieceToId (exModelBF.byteToPiece (([226, 130] : Bytes).getD i 0))) ∧
      (∀ i, i + 1 < ([226, 130] : Bytes).length →
        (blocks.getD i default).begin_ =
          ([0, 1, 2] : List Nat).getD (⟨0, false, []⟩ : PState).consumed 0 ∧
        (blocks.getD i default).end_ =
          ([0, 1, 2] : List Nat).getD (⟨0, false, []⟩ : PState).consumed 0 ∧
        (blocks.getD i default).surface = []) ∧
      (blocks.getD (([226, 130] : Bytes).length - 1) default).surface =
        clippedSubstr [226, 130]
          (([0, 1, 2] : List Nat).getD (⟨0, false, []⟩ : PState).consumed 0)
          (([0, 1, 2] : List Nat).getD
              ((⟨0, false, []⟩ : PState).consumed + ([226, 130] : Bytes).length) 0 -
            ([0, 1, 2] : List Nat).getD (⟨0, false, []⟩ : PState).consumed 0) ∧
      (blocks.getD (([226, 130] : Bytes).length - 1) default).begin_ =
        ([0, 1, 2] : List Nat).getD (⟨0, false, []⟩ : PState).consumed 0 ∧
      (blocks.getD (([226, 130] : Bytes).length - 1) default).end_ =
        ([0, 1, 2] : List Nat).getD
          ((⟨0, false, []⟩ : PState).consumed + ([226, 130] : Bytes).length) 0 :=
  ⟨⟨by decide, by decide, by decide, by decide, by decide, by decide⟩,
    C4_byte_fallback [226, 130] [0, 1, 2] exModelBF ⟨0, false, []⟩ [226, 130] 0
      (by decide) (by decide) (by decide) (by decide) (by decide) (by decide)
      (by decide) (by decide) (by decide)⟩

/-- Witness for C6: a valid one-piece tokenization of a two-byte input, on
which the walk succeeds and both failure conditions are false. -/
theorem C6_witness :
    (([0, 1, 2] : List Nat).length = ([97, 98] : Bytes).length + 1 ∧
      (∀ v ∈ ([0, 1, 2] : List Nat), v ≤ ([97, 98] : Bytes).length) ∧
      ([0, 1, 2] : List Nat).Pairwise (· ≤ ·)) ∧
    (populate [97, 98] [97, 98] [0, 1, 2] exModelC [] [([97, 98], 3)] = none ↔
      ((∃ p ∈ [(([97, 98] : Bytes), (3 : Int))], p.1 = []) ∨
        sumNC exModelC [([97, 98], 3)] ≠ ([97, 98] : Bytes).length)) :=
  ⟨⟨by decide, by decide, by decide⟩,
    C6_encode_error_iff [97, 98] [97, 98] [0, 1, 2] exModelC [] [([97, 98], 3)]
      (by decide) (by decide) (by decide)⟩

/-- C3 counterexample: on a model that does not advertise N-best encoding
(but supports sampling), `SampleEncode` with `nbest_size = 1` takes the
first branch of the dispatch - `Model.SampleEncode` - and NOT the plain
greedy `Model.Encode`, so its result differs from `Encode`'s, refuting the
claim's "for every model". -/
theorem C3_counterexample :
    sampleEncodeSpt exModelNoNBest exNrm [] [97] 1 0 ≠
      encodeSpt exModelNoNBest exNrm [] [97] := by
  decide

/-- C3 amended: provided the model advertises N-best encoding, `SampleEncode`
with `nbest_size` equal to 0 or 1 uses the plain greedy `Model.Encode`
result, so it returns exactly the same `SentencePieceText` as `Encode`. -/
theorem C3_amended_sample01_eq_encode (m : PModel)
    (nrm : Bytes → Bytes × List Nat) (opts : List ExtraOption)
    (input : Bytes) (n : Int) (choice : Nat)
    (hn : m.isNBestAvailable = true) (h01 : n = 0 ∨ n = 1) :
    sampleEncodeSpt m nrm opts input n choice = encodeSpt m nrm opts input := by
  have h512 : ¬512 < n := by rcases h01 with rfl | rfl <;> decide
  have hge : ¬n < 0 := by rcases h01 with rfl | rfl <;> decide
  have hcond : ¬(¬m.isNBestAvailable = true ∨ n < 0) := by
    intro h
    rcases h with ha | hb
    · exact ha hn
    · exact hge hb
  have h01s : n = 1 ∨ n = 0 := h01.symm
  simp only [sampleEncodeSpt, encodeSpt]
  rw [if_neg h512, if_neg hcond, if_pos h01s]

/-- Witness for the amended C3 on the concrete N-best-capable model. -/
theorem C3_witness :
    (exModelNBest.isNBestAvailable = true ∧ ((1 : Int) = 0 ∨ (1 : Int) = 1)) ∧
      sampleEncodeSpt exModelNBest exNrm [] [97] 1 0 =
        encodeSpt exModelNBest exNrm [] [97] :=
  ⟨⟨rfl, Or.inr rfl⟩,
    C3_amended_sample01_eq_encode exModelNBest exNrm [] [97] 1 0 rfl (Or.inr rfl)⟩

theorem hasPref_append (pat rest : Bytes) : hasPref pat (pat ++ rest) = true := by
  induction pat with
  | nil => rfl
  | cons p ps ih => simp [hasPref, ih]

theorem consumePref_append (pat rest : Bytes) :
    consumePref pat (pat ++ rest) = rest := by
  rw [consumePref, if_pos (hasPref_append pat rest), List.drop_left]

theorem hasSuff_append (pat rest : Bytes) :
    hasSuff pat (rest ++ pat) = true := by
  rw [hasSuff]
  have h1 : pat.length ≤ (rest ++ pat).length := by
    simp only [List.length_append]
    omega
  have h2 : (rest ++ pat).length - pat.length = rest.length := by
    simp only [List.length_append]
    omega
  rw [h2, List.drop_left]
  simp [h1]

/-- C7: for every normal piece (id neither CONTROL nor UNKNOWN), the decode
surface is the piece text with every occurrence of the meta-space marker
U+2581 replaced by an ASCII space; in prefix-whitespace mode, when the piece
is decoded first (text buffer empty, `is_bos_ws`) a single leading marker is
additionally stripped, but only when `add_dummy_prefix` or
`remove_extra_whitespaces` is set; symmetrically, in suffix-whitespace mode
a single trailing marker is stripped from the last piece (`is_eos_ws`) under
the same flag condition. -/
theorem C7_decode_normal_piece (P : DParams) (id : Int) (piece rest : Bytes)
    (hc : P.isControl id = false) (hu : P.isUnknown id = false) :
    (∀ bos eos : Bool,
      ((¬P.hasTrainerSpec ∨ ¬P.treat_whitespace_as_suffix) → bos = false →
        decodeSentencePiece P piece id bos eos = replaceSpaceSym piece) ∧
      ((P.hasTrainerSpec ∧ P.treat_whitespace_as_suffix) → eos = false →
        decodeSentencePiece P piece id bos eos = replaceSpaceSym piece) ∧
      ((P.add_dummy_prefix_flag = false ∧ P.remove_extra_whitespaces = false) →
        decodeSentencePiece P piece id bos eos = replaceSpaceSym piece)) ∧
    ((¬P.hasTrainerSpec ∨ ¬P.treat_whitespace_as_suffix) →
      (P.add_dummy_prefix_flag = true ∨ P.remove_extra_whitespaces = true) →
      piece = kSpaceSymbolB ++ rest →
      ∀ eos, decodeSentencePiece P piece id true eos = replaceSpaceSym rest) ∧
    ((P.hasTrainerSpec ∧ P.treat_whitespace_as_suffix) →
      (P.add_dummy_prefix_flag = true ∨ P.remove_extra_whitespaces = true) →
      piece = rest ++ kSpaceSymbolB →
      ∀ bos, decodeSentencePiece P piece id bos true = replaceSpaceSym rest) := by
  have hcne : ¬P.isControl id = true := fun h => Bool.false_ne_true (hc ▸ h)
  have hune : ¬P.isUnknown id = true := fun h => Bool.false_ne_true (hu ▸ h)
  refine ⟨?_, ?_, ?_⟩
  · intro bos eos
    refine ⟨?_, ?_, ?_⟩
    · intro hmode hbos
      subst hbos
      simp only [decodeSentencePiece, if_neg hcne, if_neg hune, if_pos hmode]
      rw [if_neg (by simp)]
    · intro hmode heos
      subst heos
      simp only [decodeSentencePiece, if_neg hcne, if_neg hune]
      rw [if_neg (by intro h; rcases h with h | h; exacts [h hmode.1, h hmode.2]),
        if_neg (by simp)]
    · intro hflags
      simp only [decodeSentencePiece, if_neg hcne, if_neg hune]
      by_cases hmode : ¬P.hasTrainerSpec ∨ ¬P.treat_whitespace_as_suffix
      · rw [if_pos hmode,
          if_neg (by simp [hflags.1, hflags.2])]
      · rw [if_neg hmode,
          if_neg (by simp [hflags.1, hflags.2])]
  · intro hmode hflags hp eos
    simp only [decodeSentencePiece, if_neg hcne, if_neg hune, if_pos hmode]
    rw [if_pos (by
        constructor
        · trivial
        · rcases hflags with h | h
          · exact Or.inl h
          · exact Or.inr h),
      hp, consumePref_append]
  · intro hmode hflags hp bos
    simp only [decodeSentencePiece, if_neg hcne, if_neg hune]
    rw [if_neg (by intro h; rcases h with h | h; exacts [h hmode.1, h hmode.2]),
      if_pos (by
        constructor
        · trivial
        · rcases hflags with h | h
          · exact Or.inl h
          · exact Or.inr h),
      hp, if_pos (hasSuff_append kSpaceSymbolB rest)]
    have hlen : (rest ++ kSpaceSymbolB).length - 3 = rest.length := by
      simp only [List.length_append]
      rfl
    rw [hlen, List.take_left]

/-- Witness for C7: the piece `"▁He"` (marker plus `He`) under prefix-mode
whitespace with `add_dummy_prefix` set, decoded first. -/
theorem C7_witness :
    (exDParams.isControl 5 = false ∧ exDParams.isUnknown 5 = false) ∧
    ((¬exDParams.hasTrainerSpec ∨ ¬exDParams.treat_whitespace_as_suffix) →
      (exDParams.add_dummy_prefix_flag = true ∨
        exDParams.remove_extra_whitespaces = true) →
      ([0xE2, 0x96, 0x81, 72, 101] : Bytes) = kSpaceSymbolB ++ [72, 101] →
      ∀ eos, decodeSentencePiece exDParams [0xE2, 0x96, 0x81, 72, 101] 5 true eos =
        replaceSpaceSym [72, 101]) :=
  ⟨⟨by decide, by decide⟩,
    (C7_decode_normal_piece exDParams 5 [0xE2, 0x96, 0x81, 72, 101] [72, 101]
      (by decide) (by decide)).2.1⟩

/-- C8: `unk_id` returns the id of the unk piece exactly when that id is
classified UNKNOWN and `-1` otherwise; `bos_id`, `eos_id` and `pad_id`
return the id of the corresponding special piece exactly when that id is
classified CONTROL and `-1` otherwise. -/
theorem C8_special_ids (m : IdModel) :
    ((m.isUnknown (m.pieceToId m.unk_piece) = true →
        unk_id m = m.pieceToId m.unk_piece) ∧
      (m.isUnknown (m.pieceToId m.unk_piece) = false → unk_id m = -1)) ∧
    ((m.isControl (m.pieceToId m.bos_piece) = true →
        bos_id m = m.pieceToId m.bos_piece) ∧
      (m.isControl (m.pieceToId m.bos_piece) = false → bos_id m = -1)) ∧
    ((m.isControl (m.pieceToId m.eos_piece) = true →
        eos_id m = m.pieceToId m.eos_piece) ∧
      (m.isControl (m.pieceToId m.eos_piece) = false → eos_id m = -1)) ∧
    ((m.isControl (m.pieceToId m.pad_piece) = true →
        pad_id m = m.pieceToId m.pad_piece) ∧
      (m.isControl (m.pieceToId m.pad_piece) = false → pad_id m = -1)) := by
  refine ⟨⟨?_, ?_⟩, ⟨?_, ?_⟩, ⟨?_, ?_⟩, ⟨?_, ?_⟩⟩ <;>
    intro h <;>
    simp [unk_id, bos_id, eos_id, pad_id, h]

/-- Witness for C8 on the concrete model: unk/bos/eos defined, pad not. -/
theorem C8_witness :
    unk_id exIdModel = 0 ∧ bos_id exIdModel = 1 ∧
      eos_id exIdModel = 2 ∧ pad_id exIdModel = -1 :=
  ⟨(C8_special_ids exIdModel).1.1 (by decide),
    (C8_special_ids exIdModel).2.1.1 (by decide),
    (C8_special_ids exIdModel).2.2.1.1 (by decide),
    (C8_special_ids exIdModel).2.2.2.2 (by decide)⟩
